import Mathlib

/-!
Verification of the pipelined/audio library core nodes (Mixer, Repeater,
Track, internal semaphore) against its natural-language specification.

The Go source is shallowly embedded: sample frames become `List ℚ`
(exact rational samples, one channel; every channel of an interleaved
frame is treated identically by the code, sample-rate metadata is kept
as a plain natural number), the mutable node state becomes explicit
state records, fallible allocators return `Except`, and blocking
operations are modelled by `Option` results (`none` = the call blocks)
or by explicit step relations.  Each definition is translated from the
corresponding Go function, named after it where Lean allows.
-/

namespace Audio

/-! ## Signal-library primitives

The external `pipelined.dev/signal` package supplies frames and the
copy helper `FloatingAsFloating(src, dst)`, which copies
`min(src.Len(), dst.Len())` samples into the head of `dst` and returns
the number copied.  A frame acquired from a pool allocator created with
`GetPoolAllocator(channels, bufferSize, bufferSize)` has length
`bufferSize` and zeroed contents. -/

/-- Number of samples `FloatingAsFloating(src, dst)` copies. -/
def floatingAsFloatingLen (src dst : List ℚ) : ℕ :=
  min src.length dst.length

/-- Contents of `dst` after `FloatingAsFloating(src, dst)`: the copied
prefix of `src` followed by the untouched tail of `dst`. -/
def floatingAsFloating (src dst : List ℚ) : List ℚ :=
  src.take (floatingAsFloatingLen src dst) ++ dst.drop (floatingAsFloatingLen src dst)

/-- Zero-filled frame returned by the pool allocator (`GetFloat64`). -/
def poolFrame (bufferSize : ℕ) : List ℚ :=
  List.replicate bufferSize 0

/-! ## Internal semaphore (`internal/semaphore/semaphore.go`)

`New(l)` builds `Semaphore{limit: make(chan struct{}, l)}`; the loop
that would pre-fill the channel with `l` tokens is commented out, so a
fresh semaphore holds zero tokens.  `Acquire` selects between receiving
a token and context cancellation; `Release` sends a token.  The
semaphore state is the number of tokens currently buffered in the
channel. -/

/-- State of `semaphore.New(l)`: the channel is created empty because
the fill loop in the constructor is commented out. -/
def semaphoreNew (_l : ℕ) : ℕ := 0

/-- Effect of `Release` on the token count. -/
def semaphoreRelease (tokens : ℕ) : ℕ := tokens + 1

/-- One completed `Acquire(ctx)` call: `AcquireStep cancelled tokens tokens'`
holds when the select statement in `Acquire` can return, taking the
token count from `tokens` to `tokens'`.  Receiving a token needs one
buffered; the cancellation arm needs `ctx.Done()` closed.  When neither
arm is enabled the call blocks (no step exists). -/
inductive AcquireStep : Bool → ℕ → ℕ → Prop
  | recv (cancelled : Bool) (tokens : ℕ) (h : 0 < tokens) :
      AcquireStep cancelled tokens (tokens - 1)
  | cancel (tokens : ℕ) : AcquireStep true tokens tokens

/-- Semaphore used by each mixer input: `semaphore.New(2)` in
`Mixer.Sink` (`mixer.go`). -/
def mixerSinkSema : ℕ := semaphoreNew 2

/-! ## Mixer allocator state machine (`mixer.go`)

`Mixer` carries a `sync.Once`; the first `Sink` allocator call runs
`init` recording `(sampleRate, channels)`, later calls compare against
the recorded pair.  `Source` runs `mustInitialized` through the same
`sync.Once`: if no sink allocator ran before, it panics with
"mixer sink must be bound before source". -/

inductive MixErr
  | differentSampleRates
  | differentChannels
  | misorderedBind
  deriving DecidableEq, Repr

structure GoMixer where
  onceDone : Bool
  sampleRate : ℕ
  channels : ℕ
  inputsLen : ℕ
  deriving DecidableEq, Repr

/-- Fresh `Mixer{}` value: `sync.Once` unfired, no inputs. -/
def goMixerInit : GoMixer :=
  { onceDone := false, sampleRate := 0, channels := 0, inputsLen := 0 }

/-- One invocation of the `Mixer.Sink` allocator with offered
properties `(rate, channels)`.  Returns the mixer state after the call
together with the error result: `m.once.Do(m.init(...))` records the
properties on the first call, then the two mismatch checks run before
the input handle is appended. -/
def mixerSink (m : GoMixer) (rate channels : ℕ) : GoMixer × Option MixErr :=
  let m₁ := if m.onceDone then m
            else { m with onceDone := true, sampleRate := rate, channels := channels }
  if m₁.sampleRate ≠ rate then (m₁, some .differentSampleRates)
  else if m₁.channels ≠ channels then (m₁, some .differentChannels)
  else ({ m₁ with inputsLen := m₁.inputsLen + 1 }, none)

/-- One invocation of the `Mixer.Source` allocator:
`m.once.Do(mustInitialized)` panics (modelled as `misorderedBind`) when
no sink allocator has fired the `sync.Once`; otherwise the source is
allocated without error. -/
def mixerSource (m : GoMixer) : Option MixErr :=
  if m.onceDone then none else some .misorderedBind

/-! ## Mixer frames and merge loop (`mixer.go`)

The mixer goroutine (`func mixer`) consumes `inputSignal` messages.
Each input handle points at a node of a shared chain of `frame`
records; a data message adds the producer's buffer into the pointed
node (allocating its pool buffer on first touch), a flush message walks
the rest of the chain bumping `flushed`.  A node commits (`sum`) once
`added + flushed == expected` with `added > 0`: its buffer is sliced to
the maximum contributed length and divided sample-wise by `added`.  An
input advancing past the chain tail appends a fresh node with
`expected = expected - flushed`. -/

structure MixFrame where
  buffer : Option (List ℚ)
  expected : ℕ
  added : ℕ
  flushed : ℕ
  length : ℕ
  deriving DecidableEq, Repr

/-- Sample-wise addition loop of `(*frame).add`: add `input` into the
first `min(len(buf), len(input))` samples of `buf`, leaving the rest of
`buf` untouched. -/
def addInto (buf input : List ℚ) : List ℚ :=
  List.zipWith (· + ·) buf input ++ buf.drop (min buf.length input.length)

/-- The `(*frame).add` method: bump `added`, accumulate the input
samples, and track the maximum contributed length. -/
def frameAdd (f : MixFrame) (input : List ℚ) : MixFrame :=
  { f with
    added := f.added + 1
    buffer := some (addInto (f.buffer.getD []) input)
    length := if f.length < input.length then input.length else f.length }

/-- The `(*frame).sum` method: `none` when the frame is not yet
complete (`added == 0 || added+flushed != expected`); otherwise the
emitted buffer, sliced to the tracked length and divided sample-wise by
the number of contributors. -/
def frameSum (f : MixFrame) : Option (List ℚ) :=
  if f.added = 0 ∨ f.added + f.flushed ≠ f.expected then none
  else some (((f.buffer.getD []).take f.length).map (fun x => x / (f.added : ℚ)))

/-- Chain node freshly created by `&frame{expected: e}`: no buffer yet. -/
def newFrame (e : ℕ) : MixFrame :=
  { buffer := none, expected := e, added := 0, flushed := 0, length := 0 }

/-- Flush walk of `func mixer`: starting at the flushed input's current
node, bump `flushed` on every node to the chain end, emitting each node
whose `sum` now fires.  Returns the updated chain suffix and the
emitted buffers in chain order. -/
def flushWalk : List MixFrame → List MixFrame × List (List ℚ)
  | [] => ([], [])
  | f :: rest =>
    let f' := { f with flushed := f.flushed + 1 }
    let (rest', outs) := flushWalk rest
    match frameSum f' with
    | some out => (f' :: rest', out :: outs)
    | none => (f' :: rest', outs)

/-- State of the mixer goroutine: the frame chain (index 0 is the
original shared head), each input's chain index (`none` once flushed),
and the `sinking` counter of live inputs. -/
structure MixerLoopState where
  frames : List MixFrame
  ptrs : List (Option ℕ)
  sinking : ℕ
  deriving Repr

/-- Initial mixer state for `n` bound inputs: every input points at the
shared head `&frame{}` whose `expected` was incremented once per
`Sink` allocator call. -/
def mixerInitState (n : ℕ) : MixerLoopState :=
  { frames := [newFrame n], ptrs := List.replicate n (some 0), sinking := n }

/-- One `inputSignal` message: the input index paired with its buffer,
or `none` for the flush message sent by the input's `FlushFunc`. -/
def MixMsg : Type := ℕ × Option (List ℚ)

/-- Processing of one received `inputSignal` by `func mixer`: returns
the successor state and the buffers sent to the output channel, in
order.  A flush message clears the input's pointer, decrements
`sinking` and walks the chain; a data message allocates the node
buffer if needed, adds, emits on completion, appends a successor node
when the input was at the chain tail, and advances the input. -/
def mixerStep (cap : ℕ) (st : MixerLoopState) (msg : MixMsg) :
    MixerLoopState × List (List ℚ) :=
  match msg with
  | (i, none) =>
    let k := (st.ptrs.getD i (some 0)).getD 0
    let (walked, outs) := flushWalk (st.frames.drop k)
    ({ frames := st.frames.take k ++ walked
       ptrs := st.ptrs.set i none
       sinking := st.sinking - 1 }, outs)
  | (i, some buf) =>
    let k := (st.ptrs.getD i (some 0)).getD 0
    let f := st.frames.getD k (newFrame 0)
    let f₁ := if f.buffer = none then { f with buffer := some (poolFrame cap) } else f
    let f₂ := frameAdd f₁ buf
    let outs := match frameSum f₂ with
      | some out => [out]
      | none => []
    let frames₁ := st.frames.set k f₂
    let frames₂ := if k = frames₁.length - 1 then
        frames₁ ++ [newFrame (f₂.expected - f₂.flushed)]
      else frames₁
    ({ frames := frames₂, ptrs := st.ptrs.set i (some (k + 1)),
       sinking := st.sinking }, outs)

/-- The `func mixer` goroutine run over a message arrival sequence:
messages are processed while `sinking > 0`, collecting everything sent
to the output channel. -/
def mixerRunGo (cap : ℕ) : List MixMsg → MixerLoopState → List (List ℚ)
  | [], _ => []
  | msg :: rest, st =>
    if st.sinking = 0 then []
    else
      let (st', outs) := mixerStep cap st msg
      outs ++ mixerRunGo cap rest st'

/-- Message schedule of the two-producer scenario of C5: producers
alternate per frame epoch, as the per-input rendezvous is designed to
enforce; producer 0 sends eight frames of constant `7/10`, producer 1
six frames of constant `1/2`, each followed by its flush message. -/
def mixerScenarioMsgs : List MixMsg :=
  [((0 : ℕ), some [(7 : ℚ)/10, 7/10]), ((1 : ℕ), some [(1 : ℚ)/2, 1/2]),
   ((0 : ℕ), some [(7 : ℚ)/10, 7/10]), ((1 : ℕ), some [(1 : ℚ)/2, 1/2]),
   ((0 : ℕ), some [(7 : ℚ)/10, 7/10]), ((1 : ℕ), some [(1 : ℚ)/2, 1/2]),
   ((0 : ℕ), some [(7 : ℚ)/10, 7/10]), ((1 : ℕ), some [(1 : ℚ)/2, 1/2]),
   ((0 : ℕ), some [(7 : ℚ)/10, 7/10]), ((1 : ℕ), some [(1 : ℚ)/2, 1/2]),
   ((0 : ℕ), some [(7 : ℚ)/10, 7/10]), ((1 : ℕ), some [(1 : ℚ)/2, 1/2]),
   ((0 : ℕ), some [(7 : ℚ)/10, 7/10]), ((1 : ℕ), none),
   ((0 : ℕ), some [(7 : ℚ)/10, 7/10]), ((0 : ℕ), none)]

/-! ## Repeater (`repeat.go`)

`Repeater.Sink` delivers every incoming frame to each registered source
mailbox: inside the loop over `r.sources` it acquires a fresh pool
frame, copies the input into it with `signal.FloatingAsFloating` (the
copy is not re-sliced to the copied length), and sends a **by-value**
`message` whose `sources` field snapshots `len(r.sources)`.  The flush
callback closes every mailbox.  `Repeater.Source` dequeues from its own
mailbox, copies into the framework buffer, decrements the refcount of
its local `message` copy with `atomic.AddInt32`, and frees the buffer
only when that local counter reaches zero. -/

structure RMessage where
  buffer : List ℚ
  sources : ℤ
  deriving DecidableEq, Repr

/-- Message the sink enqueues into every mailbox for one input frame:
a freshly acquired pool frame of length `bufferSize` holding the copied
input (zero tail kept when the input is shorter), refcount snapshot
`M = len(r.sources)`. -/
def repeaterSinkMsg (bufferSize M : ℕ) (input : List ℚ) : RMessage :=
  { buffer := floatingAsFloating input (poolFrame bufferSize), sources := (M : ℤ) }

/-- Contents of one mailbox after the sink processed frames `F1..Fn`:
one message per frame, in delivery order. -/
def repeaterMailbox (bufferSize M : ℕ) (frames : List (List ℚ)) : List RMessage :=
  frames.map (repeaterSinkMsg bufferSize M)

/-- One `SourceFunc` read of a dequeued message into the framework
buffer (a pool frame of length `bufferSize`): returns the reported
samples-per-channel count, the buffer contents handed on, and whether
the atomic decrement of the local message copy released the frame to
the pool. -/
def repeaterSourceRead (bufferSize : ℕ) (msg : RMessage) : ℕ × List ℚ × Bool :=
  (floatingAsFloatingLen msg.buffer (poolFrame bufferSize),
   floatingAsFloating msg.buffer (poolFrame bufferSize),
   msg.sources - 1 == 0)

inductive PullResult
  | frame (read : ℕ) (content : List ℚ) (freed : Bool)
  | eof
  | blocked
  deriving DecidableEq, Repr

/-- One `SourceFunc` invocation on a mailbox: a closed drained mailbox
yields `io.EOF`; an open empty mailbox blocks on the channel receive;
otherwise the head message is dequeued and read. -/
def repeaterSourcePull (bufferSize : ℕ) (closed : Bool) (queue : List RMessage) :
    PullResult × List RMessage :=
  match queue with
  | [] => (if closed then .eof else .blocked, [])
  | msg :: rest =>
    let r := repeaterSourceRead bufferSize msg
    (.frame r.1 r.2.1 r.2.2, rest)

/-- Full pull sequence of one source on its mailbox after the sink has
flushed (mailbox closed): repeated `SourceFunc` invocations up to and
including the first EOF. -/
def repeaterRun (bufferSize : ℕ) : List RMessage → List PullResult
  | [] => [(repeaterSourcePull bufferSize true []).1]
  | msg :: rest =>
    (repeaterSourcePull bufferSize true (msg :: rest)).1 :: repeaterRun bufferSize rest

/-- Number of messages of one mailbox whose read releases its buffer to
the pool (the local refcount copy reaches zero). -/
def repeaterFreedPerSource (bufferSize M : ℕ) (frames : List (List ℚ)) : ℕ :=
  ((repeaterMailbox bufferSize M frames).filter
    (fun msg => msg.sources - 1 == 0)).length

/-- Pool frames still in flight after the sink dispatched `frames` to
`M` sources and every source fully drained its mailbox: the sink
acquires `M` pool frames per dispatched input frame, and each of the
`M` sources releases the frames its own reads freed. -/
def repeaterInFlight (bufferSize M : ℕ) (frames : List (List ℚ)) : ℤ :=
  (M : ℤ) * frames.length - (M : ℤ) * repeaterFreedPerSource bufferSize M frames

/-! ## Track (`track.go`)

A `Track` stores a doubly-linked list of `link` nodes, each an absolute
position `At` paired with a `Clip{asset, start, len}` referring into an
asset's sample data.  The list is embedded as a `List Link` in storage
order; the asset environment maps an asset id to its (one-channel)
sample data.  `AddClip` locates the first link ending after `at`,
splices the new link in, then resolves overlaps with `alignNextLink`
(recursive truncation/removal of following links) and `alignPrevLink`
(right-truncation of the previous link, re-inserting a split tail via a
recursive `AddClip`).  The recursive `AddClip` is given explicit fuel;
each nested call strictly decreases the number of links ending after
the insertion point, so `t.length + 1` fuel always suffices and the
out-of-fuel branch (which skips the tail re-insert) is unreachable
from `addClip`. -/

structure Clip where
  asset : ℕ
  start : ℤ
  len : ℤ
  deriving DecidableEq, Repr

structure Link where
  At : ℤ
  clip : Clip
  deriving DecidableEq, Repr

/-- Go's embedded `link.len`. -/
def Link.len (l : Link) : ℤ := l.clip.len

/-- End position of a (present) link: `l.At + l.len`. -/
def Link.End (l : Link) : ℤ := l.At + l.clip.len

/-- The `(*Asset).Clip(start, len)` constructor: out-of-range starts
give the zero clip, and a clip reaching past the asset end is truncated
to the asset size. -/
def assetClip (assetData : ℕ → List ℚ) (a : ℕ) (start len : ℤ) : Clip :=
  let size : ℤ := (assetData a).length
  if size ≤ start ∨ start < 0 then { asset := a, start := 0, len := 0 }
  else if size ≤ start + len then { asset := a, start := start, len := size - start }
  else { asset := a, start := start, len := len }

/-- The `(*link).nextAfter(index)` traversal: the list suffix headed by
the first link whose `End` exceeds `index`. -/
def nextAfter (idx : ℤ) : List Link → List Link
  | [] => []
  | l :: rest => if idx < l.End then l :: rest else nextAfter idx rest

/-- The `(*Track).alignNextLink` pass over the links following the new
link `l`: an overlapped follower is left-truncated when it extends past
`l.End`, otherwise removed, recursively. -/
def alignNextLink (l : Link) : List Link → List Link
  | [] => []
  | n :: rest =>
    let overlap := l.End - n.At
    if 0 < overlap then
      if overlap < n.len then
        { At := n.At + overlap,
          clip := { asset := n.clip.asset, start := n.clip.start + overlap,
                    len := n.clip.len - overlap } } :: rest
      else alignNextLink l rest
    else n :: rest

/-- Prefix of the list whose links end at or before `at`, paired with
the remaining suffix: the insertion split performed by `AddClip` via
`t.head.nextAfter(at)`. -/
def spanEnds (atP : ℤ) : List Link → List Link × List Link
  | [] => ([], [])
  | k :: rest =>
    if k.End ≤ atP then
      let (pre, suf) := spanEnds atP rest
      (k :: pre, suf)
    else ([], k :: rest)

/-- The `(*Track).AddClip` method with explicit fuel for its nested
recursion.  Zero-length clips are ignored; the new link is spliced
before or after the first link ending beyond `at`; `alignNextLink` then
resolves forward overlaps, and the previous-link pass right-truncates
an overlapping predecessor, re-inserting the split tail
`prev.asset.Clip(overlap + l.len + l.At - prev.At, overlap - l.len)`
through a recursive call when the overlap exceeds the new length. -/
def addClipFuel (assetData : ℕ → List ℚ) : ℕ → List Link → ℤ → Clip → List Link
  | 0, t, _, _ => t
  | fuel + 1, t, atP, c =>
    if c.len = 0 then t
    else
      let l : Link := { At := atP, clip := c }
      match spanEnds atP t with
      | (pre, []) => pre ++ [l]
      | (pre, n :: rest) =>
        if atP < n.At then
          pre ++ l :: alignNextLink l (n :: rest)
        else
          let rest' := alignNextLink l rest
          let overlap := n.End - atP
          if 0 < overlap then
            let n' : Link :=
              { At := n.At,
                clip := { asset := n.clip.asset, start := n.clip.start,
                          len := n.clip.len - overlap } }
            let t' := pre ++ n' :: l :: rest'
            if c.len < overlap then
              addClipFuel assetData fuel t' (atP + c.len)
                (assetClip assetData n.clip.asset (overlap + c.len + atP - n.At)
                  (overlap - c.len))
            else t'
          else pre ++ n :: l :: rest'

/-- The `AddClip` entry point: `t.length + 1` fuel covers the nested
recursion (each nested call consumes one stored link that ended after
its insertion point). -/
def addClip (assetData : ℕ → List ℚ) (t : List Link) (atP : ℤ) (c : Clip) :
    List Link :=
  addClipFuel assetData (t.length + 1) t atP c

/-- A sequence of `AddClip` calls on an initially empty track. -/
def addClips (assetData : ℕ → List ℚ) (calls : List (ℤ × Clip)) : List Link :=
  calls.foldl (fun t pc => addClip assetData t pc.1 pc.2) []

/-- Non-overlap ordering invariant of the timeline: every adjacent pair
satisfies `L.End ≤ R.At`. -/
def ChainInv (t : List Link) : Prop :=
  List.Chain' (fun L R => L.End ≤ R.At) t

/-- All stored links have non-negative length. -/
def LensNonneg (t : List Link) : Prop :=
  ∀ l ∈ t, 0 ≤ l.clip.len

/-- Samples a stored link covers, read from its asset. -/
def linkSamples (assetData : ℕ → List ℚ) (l : Link) : List ℚ :=
  (List.range l.clip.len.toNat).map
    (fun i : ℕ => (assetData l.clip.asset).getD (l.clip.start + (i : ℤ)).toNat 0)

/-! ## Track source (`trackSource` in `track.go`) -/

/-- Write `vals` into `out` starting at index `k`, leaving the rest of
`out` unchanged (the `out.SetSample(..., read)` loop of the source). -/
def writeAt (out : List ℚ) (k : ℕ) (vals : List ℚ) : List ℚ :=
  out.take k ++ vals ++ out.drop (k + vals.length)

/-- Inner loop of `trackSource` for one pull.  State: the current link
suffix (`current`), the absolute position `pos`, the samples-per-channel
already read, and the output buffer.  The loop exits by returning when
the buffer window is exhausted, when the next link starts at or past
the window end (the rest of the window is silence already present in
the zeroed buffer, reported as a full read), or when no link remains;
after consuming to a link's end it advances `current` with
`nextAfter(pos)` and continues.  When a copy is cut short by the buffer
window the loop condition `pos < bufferEnd` fails on re-entry, which
the translation returns directly. -/
def trackReadLoop (assetData : ℕ → List ℚ) (bufferEnd : ℤ) :
    List Link → ℤ → ℕ → List ℚ → List ℚ × ℕ × List Link × ℤ
  | [], pos, read, out => (out, read, [], pos)
  | cur :: rest, pos, read, out =>
    if pos < bufferEnd then
      if bufferEnd ≤ cur.At then (out, out.length, cur :: rest, bufferEnd)
      else
        let offset := cur.At - pos
        let read₁ := if offset < (out.length : ℤ) ∧ 0 < offset then
            read + offset.toNat else read
        let pos₁ := if offset < (out.length : ℤ) ∧ 0 < offset then
            pos + offset else pos
        let sliceStart := if offset < (out.length : ℤ) ∧ 0 < offset then
            cur.clip.start else cur.clip.start - offset
        let sliceEnd := if cur.End < bufferEnd then cur.clip.start + cur.clip.len
          else sliceStart + out.length - read₁
        let w := (sliceEnd - sliceStart).toNat
        let out' := writeAt out read₁ ((List.range w).map
          (fun i : ℕ => (assetData cur.clip.asset).getD (sliceStart + (i : ℤ)).toNat 0))
        let read₂ := read₁ + w
        let pos₂ := pos₁ + w
        if cur.End ≤ pos₂ then
          trackReadLoop assetData bufferEnd (nextAfter pos₂ rest) pos₂ read₂ out'
        else (out', read₂, cur :: rest, pos₂)
    else (out, read, cur :: rest, pos)
  termination_by S => S.length
  decreasing_by
    have hlen : ∀ (p : ℤ) (L : List Link), (nextAfter p L).length ≤ L.length := by
      intro p L
      induction L with
      | nil => simp [nextAfter]
      | cons a as ih =>
        rw [nextAfter]
        split
        · exact le_refl _
        · exact Nat.le_succ_of_le ih
    simpa using Nat.lt_succ_of_le (hlen _ rest)

/-- One `SourceFunc` invocation: EOF when no link remains, otherwise
run the read loop over the window `[pos, pos + C)` on a zeroed
framework buffer of `C` samples, returning the buffer, the reported
read count, and the advanced state. -/
def trackPull (assetData : ℕ → List ℚ) (C : ℕ) (s : List Link × ℤ) :
    Option (List ℚ × ℕ) × (List Link × ℤ) :=
  match s.1 with
  | [] => (none, s)
  | cur :: rest =>
    let r := trackReadLoop assetData (s.2 + C) (cur :: rest) s.2 0 (poolFrame C)
    (some (r.1, r.2.1), (r.2.2.1, r.2.2.2))

/-- Repeated pulls (each on a freshly zeroed buffer) until EOF, fuel
bounding the number of framework invocations. -/
def trackStream (assetData : ℕ → List ℚ) (C : ℕ) :
    ℕ → List Link × ℤ → List (List ℚ × ℕ)
  | 0, _ => []
  | fuel + 1, s =>
    match trackPull assetData C s with
    | (none, _) => []
    | (some r, s') => r :: trackStream assetData C fuel s'

/-- Spec-side sample of the track at absolute position `p`: the sample
of the covering link, or silence when `p` is uncovered. -/
def trackAt (assetData : ℕ → List ℚ) (t : List Link) (p : ℤ) : ℚ :=
  match nextAfter p t with
  | [] => 0
  | l :: _ =>
    if l.At ≤ p then (assetData l.clip.asset).getD (l.clip.start + (p - l.At)).toNat 0
    else 0

/-- End of the last stored link, or the default when none is stored. -/
def lastEndD (t : List Link) (d : ℤ) : ℤ :=
  match t.getLast? with
  | none => d
  | some l => l.End

/-- Total samples-per-channel a pull sequence reports. -/
def streamReads (rs : List (List ℚ × ℕ)) : ℕ :=
  (rs.map (fun r => r.2)).sum

/-- The emitted sample stream: each pull contributes the reported
number of samples from its buffer. -/
def streamSamples (rs : List (List ℚ × ℕ)) : List ℚ :=
  (rs.map (fun r => r.1.take r.2)).foldr (· ++ ·) []


/-- Postcondition of one `trackSource` read-loop run from state
`(S, pos, read, out)` with window base `p₀` and buffer size `C`:
the buffer keeps its length and its already-read prefix, the samples
reported between `read` and the new count are exactly the track
contents at the corresponding absolute positions, the unreported
suffix stays zeroed, the returned link suffix is equivalent to the
original for every later `nextAfter` query, and the new position is the
window end clipped by the end of the last remaining link. -/
def ReadLoopPost (d : ℕ → List ℚ) (C : ℕ) (p₀ : ℤ) (S : List Link) (pos : ℤ)
    (read : ℕ) (out out' : List ℚ) (read' : ℕ) (S' : List Link) (pos' : ℤ) :
    Prop :=
  out'.length = C ∧
  read ≤ read' ∧ read' ≤ C ∧ pos' = p₀ + read' ∧
  (∀ j, j < read → out'.getD j 0 = out.getD j 0) ∧
  (∀ j, read ≤ j → j < read' → out'.getD j 0 = trackAt d S (p₀ + j)) ∧
  (∀ j, read' ≤ j → j < C → out'.getD j 0 = 0) ∧
  (∀ p, pos' ≤ p → nextAfter p S' = nextAfter p S) ∧
  S' <:+ S ∧
  pos' = min (p₀ + C) (max pos (lastEndD S pos)) ∧
  (S' ≠ [] → pos' = p₀ + C)

/-! ## Library lemmas -/



/-! ## Library lemmas -/

theorem floatingAsFloating_length (src dst : List ℚ) :
    (floatingAsFloating src dst).length = dst.length := by
  simp [floatingAsFloating, floatingAsFloatingLen]

theorem floatingAsFloating_of_ge (src dst : List ℚ)
    (h : dst.length ≤ src.length) :
    floatingAsFloating src dst = src.take dst.length := by
  simp [floatingAsFloating, floatingAsFloatingLen, Nat.min_eq_right h]

/-! ## C10 — semaphore starts empty; first mixer-sink acquire blocks -/

/-- C10.  A semaphore built by `semaphore.New(l)` starts with zero
buffered tokens for every `l`; from that state an `Acquire` whose
context is live cannot complete (it blocks until a `Release` adds a
token — afterwards it can), while an `Acquire` whose context is already
cancelled completes at once leaving the token count unchanged.  The
mixer sink's per-input semaphore `semaphore.New(2)` is such a semaphore,
so its first `Acquire` cannot complete before a consumer-side `Release`
or a cancellation. -/
theorem semaphore_new_empty_acquire_blocks :
    (∀ l : ℕ, semaphoreNew l = 0) ∧
    (∀ tokens' : ℕ, ¬ AcquireStep false (semaphoreNew 2) tokens') ∧
    AcquireStep true (semaphoreNew 2) (semaphoreNew 2) ∧
    AcquireStep false (semaphoreRelease (semaphoreNew 2)) (semaphoreNew 2) ∧
    (∀ tokens' : ℕ, ¬ AcquireStep false mixerSinkSema tokens') := by
  refine ⟨fun _ => rfl, ?_, AcquireStep.cancel _, ?_, ?_⟩
  · intro tokens' h
    cases h with
    | recv _ _ h => exact absurd h (by simp [semaphoreNew])
  · exact AcquireStep.recv _ _ (by simp [semaphoreRelease])
  · intro tokens' h
    cases h with
    | recv _ _ h => exact absurd h (by simp [mixerSinkSema, semaphoreNew])

/-! ## C9 — mixer source allocator must come after a sink allocator -/

/-- C9.  Invoking the `Mixer.Source` allocator on a mixer whose
`sync.Once` has not been fired by any `Mixer.Sink` call fails with the
misordered-bind panic, while after any `Mixer.Sink` invocation
(whatever its properties and result) the source allocator succeeds. -/
theorem mixerSource_misordered_bind :
    mixerSource goMixerInit = some MixErr.misorderedBind ∧
    (∀ (m : GoMixer) (rate channels : ℕ),
      mixerSource (mixerSink m rate channels).1 = none) := by
  refine ⟨rfl, fun m rate channels => ?_⟩
  have h1 : (mixerSink m rate channels).1.onceDone = true := by
    unfold mixerSink
    by_cases h : m.onceDone
    · simp only [h, if_true]
      split_ifs <;> simp_all
    · simp only [h, if_false]
      split_ifs <;> simp_all
  simp [mixerSource, h1]

/-! ## C8 — mixer sink mismatch errors -/

/-- C8 counterexample.  The claim says a differing channel count is
answered with the channel-count-mismatch error, but when both the rate
and the channel count differ the allocator returns the
sample-rate-mismatch error: a mixer that recorded `(44100, 2)` answers
an offer of `(48000, 1)` with `ErrDifferentSampleRates` even though the
channel count also differs. -/
theorem mixerSink_both_differ_counterexample :
    let m : GoMixer :=
      { onceDone := true, sampleRate := 44100, channels := 2, inputsLen := 1 }
    (mixerSink m 48000 1).2 = some MixErr.differentSampleRates ∧
    (mixerSink m 48000 1).2 ≠ some MixErr.differentChannels ∧ (1 : ℕ) ≠ 2 := by
  decide

/-- C8 amended.  On every `Mixer.Sink` invocation after the first
(`onceDone = true`): a differing sample rate is rejected with the
sample-rate-mismatch error; a matching sample rate with a differing
channel count is rejected with the distinct channel-count-mismatch
error; and in either error case the input list is left unchanged, while
a matching offer appends exactly one input handle. -/
theorem mixerSink_mismatch_errors (m : GoMixer) (rate channels : ℕ)
    (hdone : m.onceDone = true) :
    (rate ≠ m.sampleRate →
      mixerSink m rate channels = (m, some MixErr.differentSampleRates)) ∧
    (rate = m.sampleRate → channels ≠ m.channels →
      mixerSink m rate channels = (m, some MixErr.differentChannels)) ∧
    ((mixerSink m rate channels).2.isSome →
      (mixerSink m rate channels).1.inputsLen = m.inputsLen) ∧
    ((mixerSink m rate channels).2 = none →
      (mixerSink m rate channels).1.inputsLen = m.inputsLen + 1) ∧
    MixErr.differentSampleRates ≠ MixErr.differentChannels := by
  unfold mixerSink
  refine ⟨?_, ?_, ?_, ?_, by decide⟩
  all_goals simp [hdone]
  · intro h
    simp [Ne.symm h]
  · intro h h'
    simp [h, Ne.symm h']
  · intro h
    split at h <;> simp_all
    split at h <;> simp_all
  · intro h
    split at h <;> simp_all
    split at h <;> simp_all

/-- C8 witness.  The amended theorem applied to a mixer that recorded
`(44100, 2)`: a rate mismatch yields the rate error without appending,
a channel mismatch yields the channel error without appending, and a
matching offer appends one input. -/
theorem mixerSink_mismatch_errors_witness :
    let m : GoMixer :=
      { onceDone := true, sampleRate := 44100, channels := 2, inputsLen := 3 }
    mixerSink m 48000 2 = (m, some MixErr.differentSampleRates) ∧
    mixerSink m 44100 1 = (m, some MixErr.differentChannels) := by
  intro m
  exact ⟨(mixerSink_mismatch_errors m 48000 2 rfl).1 (by decide),
    (mixerSink_mismatch_errors m 44100 1 rfl).2.1 rfl (by decide)⟩

/-! ## Mixer frame lemmas -/

set_option maxHeartbeats 3200000 in
/-- C5.  Evaluating the merge logic of `func mixer` on the scenario
(bufferSize 2, one channel, producer A eight frames of `7/10`, producer
B six frames of `1/2`): the source-side stream is exactly twelve
samples `3/5` followed by four samples `7/10`.  This is the output the
claim states; the shipped code cannot actually produce it because every
`semaphore.New` starts with zero tokens (see the C10 theorem), so each
sink's first `Acquire` blocks before any message reaches the merge
loop.  The proof below is a computation of `mixerRunGo` by rewriting. -/
theorem mixer_scenario_output :
    (mixerRunGo 2 mixerScenarioMsgs (mixerInitState 2)).foldr (· ++ ·) [] =
      List.replicate 12 ((3 : ℚ)/5) ++ List.replicate 4 ((7 : ℚ)/10) := by
  norm_num [mixerRunGo, mixerScenarioMsgs, mixerInitState, mixerStep, frameAdd,
    frameSum, addInto, flushWalk, newFrame, poolFrame, List.replicate,
    List.getD, List.set, Option.some_ne_none]

/-! ## C2 — repeater delivers each frame once, in order -/

theorem repeaterSinkMsg_full (bufferSize M : ℕ) (F : List ℚ)
    (h : F.length = bufferSize) :
    repeaterSinkMsg bufferSize M F = { buffer := F, sources := (M : ℤ) } := by
  have hd : (poolFrame bufferSize).length = bufferSize := by simp [poolFrame]
  have hc : floatingAsFloating F (poolFrame bufferSize) = F.take bufferSize := by
    rw [floatingAsFloating_of_ge F _ (by rw [hd, h]), hd]
  subst h
  simp [repeaterSinkMsg, hc]

/-- C2 counterexample.  The claim quantifies over every delivered frame
sequence, but the sink copies each frame into a full-capacity pool
frame without re-slicing: with `bufferSize = 2`, delivering the single
one-sample frame `[5]` makes the source return two samples `[5, 0]`,
not exactly `F1 = [5]` with one sample. -/
theorem repeater_short_frame_counterexample :
    repeaterRun 2 (repeaterMailbox 2 1 [[5]]) =
      [PullResult.frame 2 [5, 0] true, PullResult.eof] ∧
    PullResult.frame 2 [(5 : ℚ), 0] true ≠ PullResult.frame 1 [5] true := by
  constructor
  · rfl
  · decide

/-- C2 amended.  For every sequence of full-length frames `F1..Fn`
(each of exactly `bufferSize` samples) delivered to the repeater sink,
every source registered before delivery pulls exactly `F1..Fn` in
delivery order — each frame exactly once, none missed, none
duplicated — and the first pull after the sink has flushed and the
mailbox is drained returns EOF.  Frames shorter than `bufferSize` are
zero-padded to full capacity instead (see the counterexample). -/
theorem repeaterRun_exact (bufferSize M : ℕ) (frames : List (List ℚ))
    (h : ∀ F ∈ frames, F.length = bufferSize) :
    repeaterRun bufferSize (repeaterMailbox bufferSize M frames) =
      frames.map (fun F => PullResult.frame bufferSize F (((M : ℤ) - 1) == 0)) ++
        [PullResult.eof] := by
  induction frames with
  | nil => rfl
  | cons F rest ih =>
    have hF : F.length = bufferSize := h F (by simp)
    have hrest := ih (fun G hG => h G (List.mem_cons_of_mem _ hG))
    simp only [repeaterMailbox, List.map_cons] at hrest ⊢
    simp only [repeaterRun, hrest, repeaterSourcePull,
      repeaterSinkMsg_full bufferSize M F hF, repeaterSourceRead]
    simp [floatingAsFloatingLen, floatingAsFloating, poolFrame, hF]

/-- C2 witness.  Two full frames through a two-source repeater: the
drain returns both frames in order, then EOF (and no read frees the
buffer, the refcount copy stalling at 1). -/
theorem repeaterRun_exact_witness :
    repeaterRun 2 (repeaterMailbox 2 2 [[1, 2], [3, 4]]) =
      [PullResult.frame 2 [1, 2] false, PullResult.frame 2 [3, 4] false,
        PullResult.eof] := by
  have := repeaterRun_exact 2 2 [[1, 2], [3, 4]] (by
    intro F hF
    simp only [List.mem_cons, List.not_mem_nil, or_false] at hF
    rcases hF with h | h <;> simp [h])
  simpa using this

/-! ## C4 — repeater refcount never releases for fan-out ≥ 2 -/

/-- C4 is false of the code: `message` travels through `chan message`
by value and the sink builds a separate message (with its own pool
frame) for every mailbox, so `atomic.AddInt32(&message.sources, -1)`
decrements a per-source local copy.  With fan-out `M = 2` the lone
dispatched frame leaves each source's copy at `2 - 1 = 1 ≠ 0`: no read
releases a buffer, two pool frames were acquired, and after full
consumption the pool has `2` frames in flight although
`dispatched − fully_consumed = 1 − 1 = 0`.  Only `M = 1` releases. -/
theorem repeater_refcount_code_bug :
    (repeaterSinkMsg 1 2 [3]).sources = 2 ∧
    (repeaterSourceRead 1 (repeaterSinkMsg 1 2 [3])).2.2 = false ∧
    repeaterInFlight 1 2 [[3]] = 2 ∧ (2 : ℤ) ≠ 1 - 1 ∧
    repeaterInFlight 1 1 [[3]] = 0 := by
  refine ⟨rfl, rfl, rfl, by decide, rfl⟩

/-! ## C6 — the re-inserted tail reads the wrong asset offset -/

/-- C6 is false of the code: `alignPrevLink` re-inserts the split tail
with asset offset `overlap + l.len + l.At - prev.At`, which simplifies
to `prev.len_old + l.len` and differs from the pre-truncation tail
offset `prev.start + (l.End() - prev.At)` whenever
`overlap ≠ prev.start`.  Inserting `A.Clip(3, 6)` at 2 (timeline
samples `13..18`) and then `B.Clip(5, 2)` at 4 stores the tail link at
position 6 with asset offset 8 — samples `[18, 19]` — although the
samples of the pre-truncation previous link at timeline positions `≥ 6`
sit at asset offsets 7 and 8 — samples `[17, 18]` (which is also what
the repository's own track test expects for this shape). -/
theorem track_prev_split_code_bug :
    (addClips (fun a : ℕ => if a = 0 then
          ([10, 11, 12, 13, 14, 15, 16, 17, 18, 19] : List ℚ) else
          [20, 21, 22, 23, 24, 25, 26, 27, 28, 29])
        [(2, assetClip (fun a : ℕ => if a = 0 then
            ([10, 11, 12, 13, 14, 15, 16, 17, 18, 19] : List ℚ) else
            [20, 21, 22, 23, 24, 25, 26, 27, 28, 29]) 0 3 6),
         (4, assetClip (fun a : ℕ => if a = 0 then
            ([10, 11, 12, 13, 14, 15, 16, 17, 18, 19] : List ℚ) else
            [20, 21, 22, 23, 24, 25, 26, 27, 28, 29]) 1 5 2)]).map
      (fun l => (l.At, l.clip.asset, l.clip.start, l.clip.len)) =
      [(2, 0, 3, 2), (4, 1, 5, 2), (6, 0, 8, 2)] ∧
    linkSamples (fun a : ℕ => if a = 0 then
        ([10, 11, 12, 13, 14, 15, 16, 17, 18, 19] : List ℚ) else
        [20, 21, 22, 23, 24, 25, 26, 27, 28, 29])
      { At := 6, clip := { asset := 0, start := 8, len := 2 } } = [18, 19] ∧
    linkSamples (fun a : ℕ => if a = 0 then
        ([10, 11, 12, 13, 14, 15, 16, 17, 18, 19] : List ℚ) else
        [20, 21, 22, 23, 24, 25, 26, 27, 28, 29])
      { At := 6, clip := { asset := 0, start := 7, len := 2 } } = [17, 18] ∧
    ([(18 : ℚ), 19] : List ℚ) ≠ [17, 18] := by
  refine ⟨by decide, by decide, by decide, by decide⟩

/-! ## C3 — counterexample: a zero-length link is stored -/

/-- C3 counterexample.  Inserting a clip exactly at the position of an
existing overlapped link right-truncates that link to length zero and
leaves it stored: after `AddClip(5, A.Clip(3,3))` and
`AddClip(5, A.Clip(0,1))` the track holds links at positions
`5, 5, 6` with lengths `0, 1, 2` — a stored zero-length link, and two
links sharing `at = 5`, so the strictly-increasing order fails. -/
theorem track_zero_len_counterexample :
    let d : ℕ → List ℚ := fun _ => [10, 11, 12, 13, 14, 15, 16, 17, 18, 19]
    let t := addClips d [(5, assetClip d 0 3 3), (5, assetClip d 0 0 1)]
    t.map (fun l => (l.At, l.clip.len)) = [(5, 0), (5, 1), (6, 2)] ∧
    (∃ l ∈ t, l.clip.len = 0) ∧
    ¬ List.Chain' (fun L R : Link => L.At < R.At) t := by
  refine ⟨by decide, by decide, ?_⟩
  intro hch
  have ht : addClips (fun _ => [10, 11, 12, 13, 14, 15, 16, 17, 18, 19])
      [(5, assetClip (fun _ => [10, 11, 12, 13, 14, 15, 16, 17, 18, 19]) 0 3 3),
       (5, assetClip (fun _ => [10, 11, 12, 13, 14, 15, 16, 17, 18, 19]) 0 0 1)] =
      [⟨5, ⟨0, 3, 0⟩⟩, ⟨5, ⟨0, 0, 1⟩⟩, ⟨6, ⟨0, 4, 2⟩⟩] := by decide
  rw [ht] at hch
  exact absurd (List.chain'_cons.mp hch).1 (by decide)

/-! ## C3 lemmas — AddClip preserves the timeline ordering -/

theorem chainInv_nil : ChainInv [] := List.chain'_nil

theorem chainInv_singleton (a : Link) : ChainInv [a] := List.chain'_singleton a

theorem chainInv_cons {a b : Link} {l : List Link} :
    ChainInv (a :: b :: l) ↔ a.End ≤ b.At ∧ ChainInv (b :: l) :=
  List.chain'_cons

theorem chainInv_cons' {a : Link} {l : List Link} :
    ChainInv (a :: l) ↔ (∀ y ∈ l.head?, a.End ≤ y.At) ∧ ChainInv l :=
  List.chain'_cons'

theorem chainInv_append {l₁ l₂ : List Link} :
    ChainInv (l₁ ++ l₂) ↔
      ChainInv l₁ ∧ ChainInv l₂ ∧
        ∀ x ∈ l₁.getLast?, ∀ y ∈ l₂.head?, x.End ≤ y.At :=
  List.chain'_append

theorem spanEnds_append (atP : ℤ) (t : List Link) :
    (spanEnds atP t).1 ++ (spanEnds atP t).2 = t := by
  induction t with
  | nil => rfl
  | cons k rest ih =>
    rw [spanEnds]
    split
    · rcases hsp : spanEnds atP rest with ⟨pre, suf⟩
      rw [hsp] at ih
      simpa [hsp] using ih
    · rfl

theorem spanEnds_pre_le (atP : ℤ) (t : List Link) :
    ∀ x ∈ (spanEnds atP t).1, x.End ≤ atP := by
  induction t with
  | nil => simp [spanEnds]
  | cons k rest ih =>
    rw [spanEnds]
    split
    · rcases hsp : spanEnds atP rest with ⟨pre, suf⟩
      rw [hsp] at ih
      intro x hx
      rcases List.mem_cons.mp (by simpa [hsp] using hx) with h | h
      · subst h
        assumption
      · exact ih x h
    · simp

theorem spanEnds_suf_head (atP : ℤ) (t : List Link) (n : Link) (rest : List Link)
    (h : (spanEnds atP t).2 = n :: rest) : atP < n.End := by
  induction t with
  | nil => simp [spanEnds] at h
  | cons k krest ih =>
    rw [spanEnds] at h
    by_cases hk : k.End ≤ atP
    · rcases hsp : spanEnds atP krest with ⟨pre, suf⟩
      rw [if_pos hk, hsp] at h
      exact ih (by simpa [hsp] using h)
    · rw [if_neg hk] at h
      have h2 : k :: krest = n :: rest := h
      have h3 : k = n := (List.cons.injEq _ _ _ _ ▸ h2).1
      subst h3
      omega

theorem alignNextLink_chain (l : Link) :
    ∀ s : List Link, ChainInv s → ChainInv (l :: alignNextLink l s) := by
  intro s
  induction s with
  | nil =>
    intro _
    simp [alignNextLink, ChainInv]
  | cons n rest ih =>
    intro h
    have heq : alignNextLink l (n :: rest) =
        (if 0 < l.End - n.At then
          if l.End - n.At < n.len then
            ⟨n.At + (l.End - n.At),
              ⟨n.clip.asset, n.clip.start + (l.End - n.At),
                n.clip.len - (l.End - n.At)⟩⟩ :: rest
          else alignNextLink l rest
        else n :: rest) := by
      rw [alignNextLink]
    rw [heq]
    split_ifs with h1 h2
    · rw [chainInv_cons']
      rw [chainInv_cons'] at h
      constructor
      · intro y hy
        simp only [List.head?, Option.mem_some_iff] at hy
        subst hy
        simp only [Link.End]
        omega
      · rw [chainInv_cons']
        refine ⟨fun y hy => ?_, h.2⟩
        have := h.1 y hy
        simp only [Link.End] at this ⊢
        omega
    · exact ih (List.Chain'.tail h)
    · rw [chainInv_cons']
      refine ⟨fun y hy => ?_, h⟩
      simp only [List.head?, Option.mem_some_iff] at hy
      subst hy
      simp only [Link.len] at h1
      omega

theorem alignNextLink_lens (l : Link) :
    ∀ s : List Link, LensNonneg s → LensNonneg (alignNextLink l s) := by
  intro s
  induction s with
  | nil =>
    intro _
    simp [alignNextLink, LensNonneg]
  | cons n rest ih =>
    intro h
    have heq : alignNextLink l (n :: rest) =
        (if 0 < l.End - n.At then
          if l.End - n.At < n.len then
            ⟨n.At + (l.End - n.At),
              ⟨n.clip.asset, n.clip.start + (l.End - n.At),
                n.clip.len - (l.End - n.At)⟩⟩ :: rest
          else alignNextLink l rest
        else n :: rest) := by
      rw [alignNextLink]
    rw [heq]
    split_ifs with h1 h2
    · intro x hx
      rcases List.mem_cons.mp hx with hx | hx
      · subst hx
        simp only [Link.len] at h2
        simp only
        omega
      · exact h x (List.mem_cons_of_mem _ hx)
    · exact ih (fun x hx => h x (List.mem_cons_of_mem _ hx))
    · exact h

theorem assetClip_len_nonneg (d : ℕ → List ℚ) (a : ℕ) (s len : ℤ)
    (h : 0 ≤ len) : 0 ≤ (assetClip d a s len).len := by
  simp only [assetClip]
  split_ifs with h1 h2
  · simp
  · simp only
    omega
  · simpa using h

/-- Invariant preservation of `AddClip`, for every fuel value: the
adjacent non-overlap chain and the non-negativity of stored lengths
survive any insertion of a clip of non-negative length. -/
theorem addClipFuel_inv (d : ℕ → List ℚ) :
    ∀ (fuel : ℕ) (t : List Link) (atP : ℤ) (c : Clip),
      ChainInv t → LensNonneg t → 0 ≤ c.len →
      ChainInv (addClipFuel d fuel t atP c) ∧
        LensNonneg (addClipFuel d fuel t atP c) := by
  intro fuel
  induction fuel with
  | zero =>
    intro t atP c hch hlen _
    exact ⟨hch, hlen⟩
  | succ fuel ih =>
    intro t atP c hch hlen hc
    by_cases h0 : c.len = 0
    · rw [addClipFuel, if_pos h0]
      exact ⟨hch, hlen⟩
    · rcases hsp : spanEnds atP t with ⟨pre, suf⟩
      have ht : pre ++ suf = t := by
        have := spanEnds_append atP t
        rwa [hsp] at this
      have hpre_le : ∀ x ∈ pre, x.End ≤ atP := by
        have := spanEnds_pre_le atP t
        rw [hsp] at this
        exact this
      rw [← ht] at hch hlen
      obtain ⟨hchpre, hchsuf, hcross⟩ := chainInv_append.mp hch
      have hlenpre : LensNonneg pre := fun x hx => hlen x (List.mem_append_left _ hx)
      have hlensuf : LensNonneg suf := fun x hx => hlen x (List.mem_append_right _ hx)
      have hpre_last : ∀ x ∈ pre.getLast?, x.End ≤ atP :=
        fun x hx => hpre_le x (List.mem_of_mem_getLast? hx)
      cases suf with
      | nil =>
        have heq : addClipFuel d (fuel + 1) t atP c = pre ++ [⟨atP, c⟩] := by
          rw [addClipFuel, if_neg h0, hsp]
        rw [heq]
        constructor
        · exact chainInv_append.mpr ⟨hchpre, chainInv_singleton _,
            fun x hx y hy => by
              simp only [List.head?, Option.mem_some_iff] at hy
              subst hy
              exact hpre_last x hx⟩
        · intro x hx
          rcases List.mem_append.mp hx with h | h
          · exact hlenpre x h
          · simp only [List.mem_singleton] at h
            subst h
            exact hc
      | cons n rest =>
        have hn_end : atP < n.End := spanEnds_suf_head atP t n rest (by rw [hsp])
        obtain ⟨hn_rest, hchrest⟩ := chainInv_cons'.mp hchsuf
        have hcross' : ∀ x ∈ pre.getLast?, x.End ≤ n.At := by
          intro x hx
          exact hcross x hx n (by simp)
        have hlenrest : LensNonneg rest :=
          fun x hx => hlensuf x (List.mem_cons_of_mem _ hx)
        have hChainL : ChainInv ((⟨atP, c⟩ : Link) :: alignNextLink ⟨atP, c⟩ rest) :=
          alignNextLink_chain _ rest hchrest
        have hLensL : LensNonneg (alignNextLink (⟨atP, c⟩ : Link) rest) :=
          alignNextLink_lens _ rest hlenrest
        have heq : addClipFuel d (fuel + 1) t atP c =
            (if atP < n.At then pre ++ ⟨atP, c⟩ :: alignNextLink ⟨atP, c⟩ (n :: rest)
             else if 0 < n.End - atP then
               (if c.len < n.End - atP then
                 addClipFuel d fuel
                   (pre ++ ⟨n.At, ⟨n.clip.asset, n.clip.start,
                       n.clip.len - (n.End - atP)⟩⟩ ::
                     ⟨atP, c⟩ :: alignNextLink ⟨atP, c⟩ rest)
                   (atP + c.len)
                   (assetClip d n.clip.asset ((n.End - atP) + c.len + atP - n.At)
                     ((n.End - atP) - c.len))
               else pre ++ ⟨n.At, ⟨n.clip.asset, n.clip.start,
                       n.clip.len - (n.End - atP)⟩⟩ ::
                     ⟨atP, c⟩ :: alignNextLink ⟨atP, c⟩ rest)
             else pre ++ n :: ⟨atP, c⟩ :: alignNextLink ⟨atP, c⟩ rest) := by
          rw [addClipFuel, if_neg h0, hsp]
        rw [heq]
        split_ifs with hAt hov hsplit
        · constructor
          · exact chainInv_append.mpr ⟨hchpre,
              alignNextLink_chain _ (n :: rest) hchsuf,
              fun x hx y hy => by
                simp only [List.head?, Option.mem_some_iff] at hy
                subst hy
                exact hpre_last x hx⟩
          · intro x hx
            rcases List.mem_append.mp hx with h | h
            · exact hlenpre x h
            · rcases List.mem_cons.mp h with h | h
              · subst h
                exact hc
              · exact alignNextLink_lens _ (n :: rest) hlensuf x h
        · -- split case: previous link truncated, tail re-inserted recursively
          have hch_t' : ChainInv (pre ++ ⟨n.At, ⟨n.clip.asset, n.clip.start,
              n.clip.len - (n.End - atP)⟩⟩ ::
              (⟨atP, c⟩ : Link) :: alignNextLink ⟨atP, c⟩ rest) := by
            refine chainInv_append.mpr ⟨hchpre, ?_, fun x hx y hy => ?_⟩
            · rw [chainInv_cons]
              refine ⟨?_, hChainL⟩
              simp only [Link.End]
              omega
            · simp only [List.head?, Option.mem_some_iff] at hy
              subst hy
              exact hcross' x hx
          have hlen_t' : LensNonneg (pre ++ ⟨n.At, ⟨n.clip.asset, n.clip.start,
              n.clip.len - (n.End - atP)⟩⟩ ::
              (⟨atP, c⟩ : Link) :: alignNextLink ⟨atP, c⟩ rest) := by
            intro x hx
            rcases List.mem_append.mp hx with h | h
            · exact hlenpre x h
            · rcases List.mem_cons.mp h with h | h
              · subst h
                simp only [Link.End]
                omega
              · rcases List.mem_cons.mp h with h | h
                · subst h
                  exact hc
                · exact hLensL x h
          exact ih _ _ _ hch_t' hlen_t'
            (assetClip_len_nonneg d n.clip.asset _ _ (by omega))
        · -- truncation without split
          constructor
          · refine chainInv_append.mpr ⟨hchpre, ?_, fun x hx y hy => ?_⟩
            · rw [chainInv_cons]
              refine ⟨?_, hChainL⟩
              simp only [Link.End]
              omega
            · simp only [List.head?, Option.mem_some_iff] at hy
              subst hy
              exact hcross' x hx
          · intro x hx
            rcases List.mem_append.mp hx with h | h
            · exact hlenpre x h
            · rcases List.mem_cons.mp h with h | h
              · subst h
                simp only [Link.End]
                omega
              · rcases List.mem_cons.mp h with h | h
                · subst h
                  exact hc
                · exact hLensL x h
        · -- no previous overlap
          constructor
          · refine chainInv_append.mpr ⟨hchpre, ?_, fun x hx y hy => ?_⟩
            · rw [chainInv_cons]
              refine ⟨by omega, hChainL⟩
            · simp only [List.head?, Option.mem_some_iff] at hy
              subst hy
              exact hcross' x hx
          · intro x hx
            rcases List.mem_append.mp hx with h | h
            · exact hlenpre x h
            · rcases List.mem_cons.mp h with h | h
              · subst h
                exact hlensuf _ (by simp)
              · rcases List.mem_cons.mp h with h | h
                · subst h
                  exact hc
                · exact hLensL x h

/-- With non-negative lengths, the non-overlap chain forces
non-decreasing `At` positions. -/
theorem chainInv_at_mono :
    ∀ t : List Link, ChainInv t → LensNonneg t →
      List.Chain' (fun L R : Link => L.At ≤ R.At) t := by
  intro t
  induction t with
  | nil =>
    intro _ _
    simp
  | cons a rest ih =>
    intro hch hlen
    rw [chainInv_cons'] at hch
    rw [List.chain'_cons']
    refine ⟨fun y hy => ?_, ih hch.2 (fun x hx => hlen x (List.mem_cons_of_mem _ hx))⟩
    have h1 := hch.1 y hy
    have h2 := hlen a (by simp)
    simp only [Link.End] at h1
    omega

/-- Invariants through a whole `AddClip` call sequence. -/
theorem foldl_addClip_inv (d : ℕ → List ℚ) (calls : List (ℤ × Clip)) :
    ∀ t : List Link, ChainInv t → LensNonneg t →
      (∀ pc ∈ calls, 0 ≤ pc.2.len) →
      ChainInv (calls.foldl (fun t pc => addClip d t pc.1 pc.2) t) ∧
        LensNonneg (calls.foldl (fun t pc => addClip d t pc.1 pc.2) t) := by
  induction calls with
  | nil =>
    intro t hch hlen _
    exact ⟨hch, hlen⟩
  | cons pc rest ih =>
    intro t hch hlen hpos
    have h1 := addClipFuel_inv d (t.length + 1) t pc.1 pc.2 hch hlen
      (hpos pc (by simp))
    exact ih _ h1.1 h1.2 (fun q hq => hpos q (List.mem_cons_of_mem _ hq))

/-! ## C3 — amended timeline invariant -/

/-- C3 amended.  After any sequence of `AddClip` calls whose clips have
non-negative length, every two adjacent stored links satisfy
`L.At + L.len ≤ R.At`, all stored lengths are non-negative, and the
links appear in non-decreasing `At` order.  The claim's strict parts
fail: a link can be stored with length zero and two links can share the
same `At` (see the counterexample), so "strictly increasing" and "no
zero-length link" must be weakened as above. -/
theorem addClips_invariant (d : ℕ → List ℚ) (calls : List (ℤ × Clip))
    (h : ∀ pc ∈ calls, 0 ≤ pc.2.len) :
    ChainInv (addClips d calls) ∧ LensNonneg (addClips d calls) ∧
    List.Chain' (fun L R : Link => L.At ≤ R.At) (addClips d calls) := by
  have hmain := foldl_addClip_inv d calls [] chainInv_nil
    (by intro x hx; simp at hx) h
  exact ⟨hmain.1, hmain.2, chainInv_at_mono _ hmain.1 hmain.2⟩

/-- C3 witness.  The amended invariant evaluated on the two-insert
sequence of the counterexample (both clips have positive length). -/
theorem addClips_invariant_witness :
    let d : ℕ → List ℚ := fun _ => [10, 11, 12, 13, 14, 15, 16, 17, 18, 19]
    let calls := [((5 : ℤ), assetClip d 0 3 3), ((5 : ℤ), assetClip d 0 0 1)]
    ChainInv (addClips d calls) ∧ LensNonneg (addClips d calls) ∧
    List.Chain' (fun L R : Link => L.At ≤ R.At) (addClips d calls) :=
  addClips_invariant _ _ (by decide)


/-! ## C7 — counterexample: the window bound `end` is ignored -/

/-- C7 counterexample.  The `end` parameter of `trackSource` is never
consulted: with a track holding a single link over `[0, 2)` and a read
window `[5, 9)` — which intersects no link — the first pull returns EOF
immediately and the stream carries `0` samples, not the
`end − start = 4` zeroed samples the claim requires. -/
theorem track_empty_window_counterexample :
    let d : ℕ → List ℚ := fun _ => []
    let t : List Link := [{ At := 0, clip := { asset := 0, start := 0, len := 2 } }]
    trackStream d 2 9 (nextAfter 5 t, 5) = [] ∧
    streamReads (trackStream d 2 9 (nextAfter 5 t, 5)) = 0 ∧ (0 : ℕ) ≠ 9 - 5 := by
  refine ⟨by decide, by decide, by decide⟩

/-! ## C7 lemmas — buffer writes and link traversal -/

theorem writeAt_length (out vals : List ℚ) (k : ℕ)
    (h : k + vals.length ≤ out.length) :
    (writeAt out k vals).length = out.length := by
  simp [writeAt]
  omega

theorem writeAt_getD_lt (out vals : List ℚ) (k j : ℕ) (hk : k ≤ out.length)
    (hj : j < k) : (writeAt out k vals).getD j 0 = out.getD j 0 := by
  rw [writeAt, List.getD_eq_getElem?_getD, List.getD_eq_getElem?_getD]
  rw [List.getElem?_append, List.getElem?_append]
  simp only [List.length_take, List.length_append]
  rw [if_pos (by omega), if_pos (by omega), List.getElem?_take]
  rw [if_pos hj]

theorem writeAt_getD_mid (out vals : List ℚ) (k j : ℕ) (hk : k ≤ out.length)
    (hj : k ≤ j) (hj2 : j < k + vals.length) :
    (writeAt out k vals).getD j 0 = vals.getD (j - k) 0 := by
  rw [writeAt, List.getD_eq_getElem?_getD, List.getD_eq_getElem?_getD]
  rw [List.getElem?_append, List.getElem?_append]
  simp only [List.length_take, List.length_append, Nat.min_eq_left hk]
  rw [if_pos (by omega), if_neg (by omega)]

theorem writeAt_getD_ge (out vals : List ℚ) (k j : ℕ) (hk : k ≤ out.length)
    (hj : k + vals.length ≤ j) :
    (writeAt out k vals).getD j 0 = out.getD j 0 := by
  rw [writeAt, List.getD_eq_getElem?_getD, List.getD_eq_getElem?_getD]
  rw [List.getElem?_append]
  simp only [List.length_take, List.length_append, Nat.min_eq_left hk]
  rw [if_neg (by omega), List.getElem?_drop]
  have h2 : k + vals.length + (j - (k + vals.length)) = j := by omega
  rw [h2]

theorem rangeMap_getD (w : ℕ) (f : ℕ → ℚ) (i : ℕ) (h : i < w) :
    ((List.range w).map f).getD i 0 = f i := by
  rw [List.getD_eq_getElem?_getD, List.getElem?_map, List.getElem?_range h]
  rfl

theorem nextAfter_suffix (p : ℤ) : ∀ t : List Link, nextAfter p t <:+ t := by
  intro t
  induction t with
  | nil => exact List.suffix_refl _
  | cons a rest ih =>
    rw [nextAfter]
    split
    · exact List.suffix_refl _
    · exact ih.trans (List.suffix_cons a rest)

theorem nextAfter_head_lt (p : ℤ) :
    ∀ (t : List Link) (l : Link) (rest : List Link),
      nextAfter p t = l :: rest → p < l.End := by
  intro t
  induction t with
  | nil =>
    intro l rest h
    simp [nextAfter] at h
  | cons a as ih =>
    intro l rest h
    rw [nextAfter] at h
    by_cases hp : p < a.End
    · rw [if_pos hp] at h
      obtain ⟨h1, _⟩ := List.cons.injEq .. ▸ h
      subst h1
      exact hp
    · rw [if_neg hp] at h
      exact ih l rest h

theorem nextAfter_comp (p pos : ℤ) (hpp : pos ≤ p) :
    ∀ t : List Link, nextAfter p (nextAfter pos t) = nextAfter p t := by
  intro t
  induction t with
  | nil => rfl
  | cons a as ih =>
    by_cases h : pos < a.End
    · rw [nextAfter, if_pos h]
    · rw [nextAfter, if_neg h, ih, nextAfter, if_neg (by omega)]

theorem nextAfter_nil_ends (p : ℤ) :
    ∀ t : List Link, nextAfter p t = [] → ∀ l ∈ t, l.End ≤ p := by
  intro t
  induction t with
  | nil => simp
  | cons a as ih =>
    intro h l hl
    rw [nextAfter] at h
    by_cases hp : p < a.End
    · rw [if_pos hp] at h
      exact absurd h (by simp)
    · rw [if_neg hp] at h
      rcases List.mem_cons.mp hl with hl | hl
      · subst hl
        omega
      · exact ih h l hl

theorem chainInv_of_suffix {S t : List Link} (h : S <:+ t) (hch : ChainInv t) :
    ChainInv S := by
  obtain ⟨pref, rfl⟩ := h
  exact (chainInv_append.mp hch).2.1

theorem lensNonneg_of_suffix {S t : List Link} (h : S <:+ t)
    (hlen : LensNonneg t) : LensNonneg S :=
  fun x hx => hlen x (h.subset hx)

theorem lastEndD_cons_cons (a b : Link) (l : List Link) (d : ℤ) :
    lastEndD (a :: b :: l) d = lastEndD (b :: l) d := by
  rw [lastEndD, lastEndD, List.getLast?_cons_cons]

theorem end_le_lastEndD (d : ℤ) :
    ∀ t : List Link, ChainInv t → LensNonneg t → ∀ l ∈ t, l.End ≤ lastEndD t d := by
  intro t
  induction t with
  | nil => simp
  | cons a rest ih =>
    intro hch hlen l hl
    cases rest with
    | nil =>
      simp only [List.mem_singleton] at hl
      subst hl
      exact le_of_eq rfl
    | cons b rs =>
      rw [lastEndD_cons_cons]
      rcases List.mem_cons.mp hl with hl | hl
      · subst hl
        obtain ⟨hab, hrest⟩ := chainInv_cons.mp hch
        have hb := ih hrest (fun x hx => hlen x (List.mem_cons_of_mem _ hx))
          b (by simp)
        have hblen := hlen b (by simp)
        simp only [Link.End] at hab hb ⊢
        omega
      · exact ih (chainInv_cons.mp hch).2
          (fun x hx => hlen x (List.mem_cons_of_mem _ hx)) l hl

theorem lastEndD_of_suffix {S t : List Link} (h : S <:+ t) (hne : S ≠ [])
    (d d' : ℤ) : lastEndD S d = lastEndD t d' := by
  obtain ⟨pref, rfl⟩ := h
  rw [lastEndD, lastEndD, List.getLast?_append_of_ne_nil pref hne]
  cases hS : S.getLast? with
  | none => exact absurd (List.getLast?_eq_none_iff.mp hS) hne
  | some l => rfl

theorem nextAfter_length_le (p : ℤ) :
    ∀ t : List Link, (nextAfter p t).length ≤ t.length := by
  intro t
  induction t with
  | nil => simp [nextAfter]
  | cons a as ih =>
    rw [nextAfter]
    split
    · exact le_refl _
    · exact Nat.le_succ_of_le ih

theorem trackAt_congr (d : ℕ → List ℚ) (t₁ t₂ : List Link) (p : ℤ)
    (h : nextAfter p t₁ = nextAfter p t₂) : trackAt d t₁ p = trackAt d t₂ p := by
  rw [trackAt, trackAt, h]

theorem lastEndD_mem (t : List Link) (d : ℤ) (h : t ≠ []) :
    ∃ l ∈ t, lastEndD t d = l.End := by
  refine ⟨t.getLast h, List.getLast_mem h, ?_⟩
  rw [lastEndD, List.getLast?_eq_getLast_of_ne_nil h]

theorem trackAt_of_head (d : ℕ → List ℚ) (t : List Link) (p : ℤ) (cur : Link)
    (rest : List Link) (h : nextAfter p t = cur :: rest) :
    trackAt d t p =
      if cur.At ≤ p then
        (d cur.clip.asset).getD (cur.clip.start + (p - cur.At)).toNat 0
      else 0 := by
  rw [trackAt, h]

theorem trackAt_of_nil (d : ℕ → List ℚ) (t : List Link) (p : ℤ)
    (h : nextAfter p t = []) : trackAt d t p = 0 := by
  rw [trackAt, h]

/-- The read loop step that fills the window inside the current link
(the copy is cut by the buffer, `pos` reaches the window end, the
current link is kept). -/
theorem trackLoopStay_post (d : ℕ → List ℚ) (C : ℕ) (p₀ : ℤ) (cur : Link)
    (rest : List Link) (pos pos₁ : ℤ) (read read₁ : ℕ) (out : List ℚ)
    (sliceStart : ℤ) (w : ℕ)
    (hch : ChainInv (cur :: rest)) (hlen : LensNonneg (cur :: rest))
    (hout : out.length = C) (hread : read ≤ C) (hpos : pos = p₀ + read)
    (hzero : ∀ j, read ≤ j → j < C → out.getD j 0 = 0)
    (hr1 : read ≤ read₁)
    (hp1 : pos₁ = p₀ + read₁)
    (hskip : ∀ p, pos ≤ p → p < pos₁ → p < cur.At)
    (hAt : cur.At ≤ pos₁)
    (hss : sliceStart = cur.clip.start + (pos₁ - cur.At))
    (hrw : read₁ + w = C)
    (hEnd : p₀ + C ≤ cur.End) :
    ReadLoopPost d C p₀ (cur :: rest) pos read out
      (writeAt out read₁ ((List.range w).map
          (fun i : ℕ => (d cur.clip.asset).getD (sliceStart + (i : ℤ)).toNat 0)))
      (read₁ + w) (cur :: rest) (pos₁ + w) := by
  have hcl : 0 ≤ cur.clip.len := hlen cur (by simp)
  have hvl : ((List.range w).map
      (fun i : ℕ => (d cur.clip.asset).getD (sliceStart + (i : ℤ)).toNat 0)).length = w := by
    rw [List.length_map, List.length_range]
  have hlastge : cur.End ≤ lastEndD (cur :: rest) pos :=
    end_le_lastEndD pos _ hch hlen cur (by simp)
  have hr1C : read₁ ≤ C := by omega
  have hr1out : read₁ ≤ out.length := by omega
  unfold ReadLoopPost
  refine ⟨?_, by omega, by omega, ?_, ?_, ?_, ?_, ?_, List.suffix_refl _, ?_, ?_⟩
  · rw [writeAt_length]
    · exact hout
    · rw [hvl, hout]
      omega
  · push_cast
    omega
  · intro j hj
    exact writeAt_getD_lt out _ read₁ j hr1out (by omega)
  · intro j hj1 hj2
    by_cases hj : j < read₁
    · rw [writeAt_getD_lt out _ read₁ j hr1out hj]
      rw [hzero j hj1 (by omega)]
      have hpj : (p₀ : ℤ) + j < cur.At := by
        have := hskip (p₀ + j) (by omega) (by omega)
        omega
      have hna : nextAfter (p₀ + j) (cur :: rest) = cur :: rest := by
        rw [nextAfter, if_pos (by simp only [Link.End]; omega)]
      rw [trackAt_of_head d _ _ cur rest hna, if_neg (by omega)]
    · rw [writeAt_getD_mid out _ read₁ j hr1out (by omega) (by rw [hvl]; omega)]
      rw [rangeMap_getD w _ (j - read₁) (by omega)]
      have hpj1 : pos₁ ≤ p₀ + j := by omega
      have hpj2 : (p₀ : ℤ) + j < p₀ + C := by
        have : j < C := by omega
        omega
      have hna : nextAfter (p₀ + j) (cur :: rest) = cur :: rest := by
        rw [nextAfter, if_pos (by omega)]
      rw [trackAt_of_head d _ _ cur rest hna, if_pos (by omega)]
      congr 1
      omega
  · intro j hj1 hj2
    omega
  · intro p _
    rfl
  · have h1 : p₀ + (C : ℤ) ≤ max pos (lastEndD (cur :: rest) pos) := by
      have := le_max_right pos (lastEndD (cur :: rest) pos)
      omega
    omega
  · intro _
    omega

theorem lastEndD_nil (d : ℤ) : lastEndD [] d = d := rfl

theorem poolFrame_length (C : ℕ) : (poolFrame C).length = C := by
  simp [poolFrame]

theorem poolFrame_getD (C j : ℕ) : (poolFrame C).getD j 0 = 0 := by
  rcases lt_or_ge j C with h | h
  · rw [poolFrame, List.getD_eq_getElem _ 0 (by simpa using h), List.getElem_replicate]
  · rw [List.getD_eq_default]
    rw [poolFrame, List.length_replicate]
    exact h

theorem streamReads_cons (a : List ℚ × ℕ) (l : List (List ℚ × ℕ)) :
    streamReads (a :: l) = a.2 + streamReads l := by
  simp [streamReads]

theorem streamSamples_cons (a : List ℚ × ℕ) (l : List (List ℚ × ℕ)) :
    streamSamples (a :: l) = a.1.take a.2 ++ streamSamples l := by
  simp [streamSamples]

theorem take_eq_rangeMap (out : List ℚ) (n : ℕ) (f : ℕ → ℚ)
    (hn : n ≤ out.length) (h : ∀ j, j < n → out.getD j 0 = f j) :
    out.take n = (List.range n).map f := by
  apply List.ext_getElem
  · rw [List.length_take, List.length_map, List.length_range]
    omega
  · intro i h1 h2
    rw [List.getElem_take, List.getElem_map, List.getElem_range]
    rw [List.length_take] at h1
    rw [← List.getD_eq_getElem out 0 (by omega)]
    exact h i (by omega)

/-- The read-loop leaf for an exhausted link list. -/
theorem trackLoopNil_post (d : ℕ → List ℚ) (C : ℕ) (p₀ pos : ℤ) (read : ℕ)
    (out : List ℚ) (hout : out.length = C) (hread : read ≤ C)
    (hpos : pos = p₀ + read)
    (hzero : ∀ j, read ≤ j → j < C → out.getD j 0 = 0) :
    ReadLoopPost d C p₀ [] pos read out out read [] pos := by
  unfold ReadLoopPost
  refine ⟨hout, le_refl _, hread, hpos, fun j _ => rfl, ?_, hzero, fun p _ => rfl,
    List.suffix_refl _, ?_, ?_⟩
  · intro j h1 h2
    omega
  · rw [lastEndD_nil, max_self, min_eq_right (by omega)]
  · intro h
    exact absurd rfl h

/-- The read-loop leaf for an already-full window. -/
theorem trackLoopFull_post (d : ℕ → List ℚ) (C : ℕ) (p₀ : ℤ) (cur : Link)
    (rest : List Link) (pos : ℤ) (read : ℕ) (out : List ℚ)
    (hout : out.length = C) (hread : read ≤ C) (hpos : pos = p₀ + read)
    (_hzero : ∀ j, read ≤ j → j < C → out.getD j 0 = 0)
    (hge : p₀ + C ≤ pos) :
    ReadLoopPost d C p₀ (cur :: rest) pos read out out read (cur :: rest) pos := by
  unfold ReadLoopPost
  refine ⟨hout, le_refl _, hread, hpos, fun j _ => rfl, ?_, ?_, fun p _ => rfl,
    List.suffix_refl _, ?_, fun _ => by omega⟩
  · intro j h1 h2
    omega
  · intro j h1 h2
    omega
  · have h1 : pos ≤ max pos (lastEndD (cur :: rest) pos) := le_max_left _ _
    rw [min_eq_left (by omega)]
    omega

/-- The read-loop leaf that stops at a gap extending past the window. -/
theorem trackLoopGap_post (d : ℕ → List ℚ) (C : ℕ) (p₀ : ℤ) (cur : Link)
    (rest : List Link) (pos : ℤ) (read : ℕ) (out : List ℚ)
    (hch : ChainInv (cur :: rest)) (hlen : LensNonneg (cur :: rest))
    (hout : out.length = C) (hread : read ≤ C) (hpos : pos = p₀ + read)
    (hzero : ∀ j, read ≤ j → j < C → out.getD j 0 = 0)
    (hgap : p₀ + C ≤ cur.At) :
    ReadLoopPost d C p₀ (cur :: rest) pos read out out out.length (cur :: rest)
      (p₀ + C) := by
  have hcl : 0 ≤ cur.clip.len := hlen cur (by simp)
  have hlast : cur.End ≤ lastEndD (cur :: rest) pos :=
    end_le_lastEndD pos _ hch hlen cur (by simp)
  have hAE : cur.End = cur.At + cur.clip.len := rfl
  unfold ReadLoopPost
  refine ⟨hout, by omega, by omega, by omega, fun j _ => rfl, ?_, ?_, fun p _ => rfl,
    List.suffix_refl _, ?_, fun _ => rfl⟩
  · intro j h1 h2
    rw [hout] at h2
    rw [hzero j h1 h2]
    have hna : nextAfter (p₀ + j) (cur :: rest) = cur :: rest := by
      rw [nextAfter, if_pos (by simp only [Link.End]; omega)]
    rw [trackAt_of_head d _ _ cur rest hna, if_neg (by omega)]
  · intro j h1 h2
    omega
  · have h2 : p₀ + (C : ℤ) ≤ max pos (lastEndD (cur :: rest) pos) := by
      have h3 := le_max_right pos (lastEndD (cur :: rest) pos)
      omega
    rw [min_eq_left h2]

/-- The read loop step that finishes the current link and recurses:
the copy up to the link end composed with the recursive call's
postcondition on the remaining links. -/
theorem trackLoopAdvance_post (d : ℕ → List ℚ) (C : ℕ) (p₀ : ℤ) (cur : Link)
    (rest : List Link) (pos pos₁ : ℤ) (read read₁ : ℕ) (out : List ℚ)
    (sliceStart : ℤ) (w : ℕ) (out₂ : List ℚ) (read₂ : ℕ) (S₂ : List Link)
    (pos₂ : ℤ)
    (hch : ChainInv (cur :: rest)) (hlen : LensNonneg (cur :: rest))
    (hout : out.length = C) (hread : read ≤ C) (hpos : pos = p₀ + read)
    (hzero : ∀ j, read ≤ j → j < C → out.getD j 0 = 0)
    (hr1 : read ≤ read₁) (hp1 : pos₁ = p₀ + read₁)
    (hskip : ∀ p, pos ≤ p → p < pos₁ → p < cur.At)
    (hAt : cur.At ≤ pos₁)
    (hss : sliceStart = cur.clip.start + (pos₁ - cur.At))
    (hr2C : read₁ + w ≤ C)
    (hadv : cur.End ≤ pos₁ + w)
    (hcopy : 0 < w → pos₁ + w ≤ cur.End)
    (hw2 : pos₁ + w ≤ max pos cur.End)
    (ih : ReadLoopPost d C p₀ (nextAfter (pos₁ + w) rest) (pos₁ + w) (read₁ + w)
      (writeAt out read₁ ((List.range w).map
        (fun i : ℕ => (d cur.clip.asset).getD (sliceStart + (i : ℤ)).toNat 0)))
      out₂ read₂ S₂ pos₂) :
    ReadLoopPost d C p₀ (cur :: rest) pos read out out₂ read₂ S₂ pos₂ := by
  have hcl : 0 ≤ cur.clip.len := hlen cur (by simp)
  have hvl : ((List.range w).map
      (fun i : ℕ => (d cur.clip.asset).getD (sliceStart + (i : ℤ)).toNat 0)).length = w := by
    rw [List.length_map, List.length_range]
  have hr1out : read₁ ≤ out.length := by omega
  have hS2suf : nextAfter (pos₁ + w) rest <:+ cur :: rest :=
    (nextAfter_suffix _ rest).trans (List.suffix_cons cur rest)
  obtain ⟨i1, i2, i3, i4, i5, i6, i7, i8, i9, i10, i11⟩ := ih
  unfold ReadLoopPost
  refine ⟨i1, by omega, i3, i4, ?_, ?_, i7, ?_, i9.trans hS2suf, ?_, i11⟩
  · intro j hj
    rw [i5 j (by omega)]
    exact writeAt_getD_lt out _ read₁ j hr1out (by omega)
  · intro j hj1 hj2
    by_cases hjr : j < read₁ + w
    · rw [i5 j hjr]
      by_cases hj : j < read₁
      · rw [writeAt_getD_lt out _ read₁ j hr1out hj]
        rw [hzero j hj1 (by omega)]
        have hpj : (p₀ : ℤ) + j < cur.At := by
          have := hskip (p₀ + j) (by omega) (by omega)
          omega
        have hna : nextAfter (p₀ + j) (cur :: rest) = cur :: rest := by
          rw [nextAfter, if_pos (by simp only [Link.End]; omega)]
        rw [trackAt_of_head d _ _ cur rest hna, if_neg (by omega)]
      · have hw0 : 0 < w := by omega
        have hcend := hcopy hw0
        rw [writeAt_getD_mid out _ read₁ j hr1out (by omega) (by rw [hvl]; omega)]
        rw [rangeMap_getD w _ (j - read₁) (by omega)]
        have hpj2 : (p₀ : ℤ) + j < cur.End := by omega
        have hna : nextAfter (p₀ + j) (cur :: rest) = cur :: rest := by
          rw [nextAfter, if_pos (by omega)]
        rw [trackAt_of_head d _ _ cur rest hna, if_pos (by omega)]
        congr 1
        omega
    · rw [i6 j (by omega) hj2]
      apply trackAt_congr
      rw [nextAfter_comp (p₀ + j) (pos₁ + w) (by omega) rest]
      rw [nextAfter, if_neg (by omega)]
  · intro p hp
    have hple : pos₁ + (w : ℤ) ≤ p := by omega
    rw [i8 p hp, nextAfter_comp p (pos₁ + w) hple rest, nextAfter, if_neg (by omega)]
  · by_cases hS2 : nextAfter (pos₁ + w) rest = []
    · rw [hS2, lastEndD_nil, max_self] at i10
      have hends := nextAfter_nil_ends (pos₁ + w) rest hS2
      obtain ⟨l, hl, hleq⟩ := lastEndD_mem (cur :: rest) pos (by simp)
      have hlend : l.End ≤ pos₁ + w := by
        rcases List.mem_cons.mp hl with h | h
        · rw [h]
          exact hadv
        · exact hends l h
      have hge : cur.End ≤ lastEndD (cur :: rest) pos :=
        end_le_lastEndD pos _ hch hlen cur (by simp)
      rw [hleq] at hge
      rw [i10, hleq]
      simp only [min_def, max_def] at hw2 ⊢
      split_ifs at hw2 ⊢ <;> omega
    · have hL : lastEndD (nextAfter (pos₁ + w) rest) (pos₁ + w) =
          lastEndD (cur :: rest) pos := lastEndD_of_suffix hS2suf hS2 _ _
      obtain ⟨l₂, rest₂, hS2eq⟩ := List.exists_cons_of_ne_nil hS2
      have hhd : pos₁ + (w : ℤ) < l₂.End :=
        nextAfter_head_lt (pos₁ + w) rest l₂ rest₂ hS2eq
      have hch₂ : ChainInv (nextAfter (pos₁ + w) rest) :=
        chainInv_of_suffix hS2suf hch
      have hlen₂ : LensNonneg (nextAfter (pos₁ + w) rest) :=
        lensNonneg_of_suffix hS2suf hlen
      have hl₂ : l₂.End ≤ lastEndD (nextAfter (pos₁ + w) rest) (pos₁ + w) :=
        end_le_lastEndD _ _ hch₂ hlen₂ l₂ (by rw [hS2eq]; simp)
      rw [hL] at hl₂
      rw [i10, hL]
      simp only [min_def, max_def]
      split_ifs <;> omega

set_option maxHeartbeats 3200000 in
/-- Full specification of one `trackSource` read-loop run: induction on
the length of the link list, dispatching each branch of the loop body to
the matching postcondition lemma. -/
theorem trackReadLoop_spec (d : ℕ → List ℚ) (C : ℕ) (p₀ : ℤ) :
    ∀ (N : ℕ) (S : List Link), S.length ≤ N →
      ∀ (pos : ℤ) (read : ℕ) (out : List ℚ),
      ChainInv S → LensNonneg S →
      out.length = C → read ≤ C → pos = p₀ + read →
      (∀ j, read ≤ j → j < C → out.getD j 0 = 0) →
      ReadLoopPost d C p₀ S pos read out
        (trackReadLoop d (p₀ + C) S pos read out).1
        (trackReadLoop d (p₀ + C) S pos read out).2.1
        (trackReadLoop d (p₀ + C) S pos read out).2.2.1
        (trackReadLoop d (p₀ + C) S pos read out).2.2.2 := by
  intro N
  induction N with
  | zero =>
    intro S hS pos read out hch hlen hout hread hpos hzero
    have hnil : S = [] := List.length_eq_zero.mp (Nat.le_zero.mp hS)
    subst hnil
    simp only [trackReadLoop]
    exact trackLoopNil_post d C p₀ pos read out hout hread hpos hzero
  | succ N IH =>
    intro S hS pos read out hch hlen hout hread hpos hzero
    cases S with
    | nil =>
      simp only [trackReadLoop]
      exact trackLoopNil_post d C p₀ pos read out hout hread hpos hzero
    | cons cur rest =>
      have hcl : 0 ≤ cur.clip.len := hlen cur (by simp)
      have hAE : cur.End = cur.At + cur.clip.len := rfl
      have hrestN : rest.length ≤ N := by
        simp only [List.length_cons] at hS
        omega
      have hsuf : ∀ p : ℤ, nextAfter p rest <:+ cur :: rest := fun p =>
        (nextAfter_suffix p rest).trans (List.suffix_cons cur rest)
      simp only [trackReadLoop]
      split_ifs with h1 h2 h3 h4 h5 h6 h7 h8 h9
      · exact trackLoopGap_post d C p₀ cur rest pos read out hch hlen hout hread
          hpos hzero h2
      · refine trackLoopAdvance_post d C p₀ cur rest pos
          (pos + (cur.At - pos)) read (read + (cur.At - pos).toNat) out
          cur.clip.start ((cur.clip.start + cur.clip.len - cur.clip.start).toNat)
          _ _ _ _ hch hlen hout hread hpos hzero (by omega) (by omega)
          (fun p hp1 hp2 => by omega) (by omega) (by omega) (by omega) h5
          (by omega) (by have h := le_max_right pos cur.End; omega)
          (IH _ (le_trans (nextAfter_length_le _ _) hrestN) _ _ _
            (chainInv_of_suffix (hsuf _) hch) (lensNonneg_of_suffix (hsuf _) hlen)
            ?_ (by omega) (by omega) ?_)
        · rw [writeAt_length]
          · exact hout
          · rw [List.length_map, List.length_range]
            omega
        · intro j hj1 hj2
          rw [writeAt_getD_ge out _ _ j (by omega)
            (by rw [List.length_map, List.length_range]; omega)]
          exact hzero j (by omega) hj2
      · exact (h5 (by omega)).elim
      · refine trackLoopAdvance_post d C p₀ cur rest pos
          (pos + (cur.At - pos)) read (read + (cur.At - pos).toNat) out
          cur.clip.start
          ((cur.clip.start + ↑out.length - ↑(read + (cur.At - pos).toNat) -
            cur.clip.start).toNat)
          _ _ _ _ hch hlen hout hread hpos hzero (by omega) (by omega)
          (fun p hp1 hp2 => by omega) (by omega) (by omega) (by omega) h6
          (by omega) (by have h := le_max_right pos cur.End; omega)
          (IH _ (le_trans (nextAfter_length_le _ _) hrestN) _ _ _
            (chainInv_of_suffix (hsuf _) hch) (lensNonneg_of_suffix (hsuf _) hlen)
            ?_ (by omega) (by omega) ?_)
        · rw [writeAt_length]
          · exact hout
          · rw [List.length_map, List.length_range]
            omega
        · intro j hj1 hj2
          rw [writeAt_getD_ge out _ _ j (by omega)
            (by rw [List.length_map, List.length_range]; omega)]
          exact hzero j (by omega) hj2
      · exact trackLoopStay_post d C p₀ cur rest pos _ read _ out _ _ hch hlen
          hout hread hpos hzero (by omega) (by omega) (fun p hp1 hp2 => by omega)
          (by omega) (by omega) (by omega) (by omega)
      · have hAt2 : cur.At ≤ pos := by
          by_contra hcon
          exact h3 ⟨by omega, by omega⟩
        refine trackLoopAdvance_post d C p₀ cur rest pos pos read read out
          (cur.clip.start - (cur.At - pos))
          ((cur.clip.start + cur.clip.len -
            (cur.clip.start - (cur.At - pos))).toNat)
          _ _ _ _ hch hlen hout hread hpos hzero (by omega) (by omega)
          (fun p hp1 hp2 => by omega) hAt2 (by omega) (by omega) h8
          (by omega) (by
            have h := le_max_left pos cur.End
            have h' := le_max_right pos cur.End
            omega)
          (IH _ (le_trans (nextAfter_length_le _ _) hrestN) _ _ _
            (chainInv_of_suffix (hsuf _) hch) (lensNonneg_of_suffix (hsuf _) hlen)
            ?_ (by omega) (by omega) ?_)
        · rw [writeAt_length]
          · exact hout
          · rw [List.length_map, List.length_range]
            omega
        · intro j hj1 hj2
          rw [writeAt_getD_ge out _ _ j (by omega)
            (by rw [List.length_map, List.length_range]; omega)]
          exact hzero j (by omega) hj2
      · exact (h8 (by omega)).elim
      · have hAt2 : cur.At ≤ pos := by
          by_contra hcon
          exact h3 ⟨by omega, by omega⟩
        refine trackLoopAdvance_post d C p₀ cur rest pos pos read read out
          (cur.clip.start - (cur.At - pos))
          ((cur.clip.start - (cur.At - pos) + ↑out.length - ↑read -
            (cur.clip.start - (cur.At - pos))).toNat)
          _ _ _ _ hch hlen hout hread hpos hzero (by omega) (by omega)
          (fun p hp1 hp2 => by omega) hAt2 (by omega) (by omega) h9
          (by omega) (by have h := le_max_right pos cur.End; omega)
          (IH _ (le_trans (nextAfter_length_le _ _) hrestN) _ _ _
            (chainInv_of_suffix (hsuf _) hch) (lensNonneg_of_suffix (hsuf _) hlen)
            ?_ (by omega) (by omega) ?_)
        · rw [writeAt_length]
          · exact hout
          · rw [List.length_map, List.length_range]
            omega
        · intro j hj1 hj2
          rw [writeAt_getD_ge out _ _ j (by omega)
            (by rw [List.length_map, List.length_range]; omega)]
          exact hzero j (by omega) hj2
      · have hAt2 : cur.At ≤ pos := by
          by_contra hcon
          exact h3 ⟨by omega, by omega⟩
        exact trackLoopStay_post d C p₀ cur rest pos _ read _ out _ _ hch hlen
          hout hread hpos hzero (by omega) (by omega) (fun p hp1 hp2 => by omega)
          hAt2 (by omega) (by omega) (by omega)
      · exact trackLoopFull_post d C p₀ cur rest pos read out hout hread hpos
          hzero (by omega)

/-- Specification of the whole pull sequence: starting from links `S`
at position `pos`, the source reports exactly the samples of the
interval from `pos` to the end of the last stored link, then EOF. -/
theorem trackStream_post (d : ℕ → List ℚ) (C : ℕ) (hC : 0 < C) :
    ∀ (fuel : ℕ) (S : List Link) (pos : ℤ), ChainInv S → LensNonneg S →
      (max pos (lastEndD S pos) - pos).toNat + 2 ≤ fuel →
      streamReads (trackStream d C fuel (S, pos)) =
        (max pos (lastEndD S pos) - pos).toNat ∧
      streamSamples (trackStream d C fuel (S, pos)) =
        (List.range ((max pos (lastEndD S pos) - pos).toNat)).map
          (fun i : ℕ => trackAt d S (pos + (i : ℤ))) := by
  intro fuel
  induction fuel with
  | zero =>
    intro S pos _ _ hfuel
    omega
  | succ fuel IH =>
    intro S pos hch hlen hfuel
    cases S with
    | nil =>
      have hstream : trackStream d C (fuel + 1) (([] : List Link), pos) = [] := rfl
      rw [hstream, lastEndD_nil, max_self]
      simp [streamReads, streamSamples]
    | cons cur rest =>
      obtain ⟨h1, h2, h3, h4, h5, h6, h7, h8, h9, h10, h11⟩ :=
        trackReadLoop_spec d C pos (cur :: rest).length (cur :: rest)
          (le_refl _) pos 0 (poolFrame C) hch hlen (poolFrame_length C)
          (by omega) (by omega) (fun j _ _ => poolFrame_getD C j)
      have hstream : trackStream d C (fuel + 1) (cur :: rest, pos) =
          ((trackReadLoop d (pos + C) (cur :: rest) pos 0 (poolFrame C)).1,
           (trackReadLoop d (pos + C) (cur :: rest) pos 0 (poolFrame C)).2.1) ::
          trackStream d C fuel
            ((trackReadLoop d (pos + C) (cur :: rest) pos 0 (poolFrame C)).2.2.1,
             (trackReadLoop d (pos + C) (cur :: rest) pos 0 (poolFrame C)).2.2.2) :=
        rfl
      rw [hstream, streamReads_cons, streamSamples_cons]
      dsimp only
      by_cases hS' : (trackReadLoop d (pos + C) (cur :: rest) pos 0 (poolFrame C)).2.2.1 = []
      · have htail : trackStream d C fuel
            ((trackReadLoop d (pos + C) (cur :: rest) pos 0 (poolFrame C)).2.2.1,
             (trackReadLoop d (pos + C) (cur :: rest) pos 0 (poolFrame C)).2.2.2) = [] := by
          rw [hS']
          cases fuel with
          | zero => rfl
          | succ f => rfl
        have hnaS : nextAfter
            (trackReadLoop d (pos + C) (cur :: rest) pos 0 (poolFrame C)).2.2.2
            (cur :: rest) = [] := by
          have h := h8 (trackReadLoop d (pos + C) (cur :: rest) pos 0 (poolFrame C)).2.2.2
            (le_refl _)
          rw [hS'] at h
          exact h.symm
        have hends := nextAfter_nil_ends _ (cur :: rest) hnaS
        obtain ⟨l, hl, hleq⟩ := lastEndD_mem (cur :: rest) pos (by simp)
        have hlend : l.End ≤
            (trackReadLoop d (pos + C) (cur :: rest) pos 0 (poolFrame C)).2.2.2 :=
          hends l hl
        have htot : (max pos (lastEndD (cur :: rest) pos) - pos).toNat =
            (trackReadLoop d (pos + C) (cur :: rest) pos 0 (poolFrame C)).2.1 := by
          rw [hleq]
          rw [hleq] at h10
          simp only [min_def, max_def] at h10 ⊢
          split_ifs at h10 ⊢ <;> omega
        refine ⟨?_, ?_⟩
        · rw [htail]
          simp only [streamReads, List.map_nil, List.sum_nil]
          omega
        · rw [htail]
          have hnil : streamSamples ([] : List (List ℚ × ℕ)) = [] := rfl
          rw [hnil, List.append_nil, htot]
          apply take_eq_rangeMap
          · omega
          · intro j hj
            exact h6 j (by omega) hj
      · have hp11 := h11 hS'
        have hread' : (trackReadLoop d (pos + C) (cur :: rest) pos 0 (poolFrame C)).2.1
            = C := by omega
        have hL : lastEndD (trackReadLoop d (pos + C) (cur :: rest) pos 0 (poolFrame C)).2.2.1
              (trackReadLoop d (pos + C) (cur :: rest) pos 0 (poolFrame C)).2.2.2
            = lastEndD (cur :: rest) pos := lastEndD_of_suffix h9 hS' _ _
        have hLge : pos + (C : ℤ) ≤ lastEndD (cur :: rest) pos := by
          have h := h10
          rw [hp11] at h
          simp only [min_def, max_def] at h
          split_ifs at h <;> omega
        have hMge : pos + (C : ℤ) ≤ max pos (lastEndD (cur :: rest) pos) :=
          le_trans hLge (le_max_right _ _)
        have hch' : ChainInv (trackReadLoop d (pos + C) (cur :: rest) pos 0 (poolFrame C)).2.2.1 :=
          chainInv_of_suffix h9 hch
        have hlen' : LensNonneg (trackReadLoop d (pos + C) (cur :: rest) pos 0 (poolFrame C)).2.2.1 :=
          lensNonneg_of_suffix h9 hlen
        have htot' : (max (trackReadLoop d (pos + C) (cur :: rest) pos 0 (poolFrame C)).2.2.2
              (lastEndD (trackReadLoop d (pos + C) (cur :: rest) pos 0 (poolFrame C)).2.2.1
                (trackReadLoop d (pos + C) (cur :: rest) pos 0 (poolFrame C)).2.2.2) -
              (trackReadLoop d (pos + C) (cur :: rest) pos 0 (poolFrame C)).2.2.2).toNat
            = (max pos (lastEndD (cur :: rest) pos) - pos).toNat - C := by
          rw [hL, hp11]
          simp only [max_def]
          split_ifs <;> omega
        have hfuel' : (max (trackReadLoop d (pos + C) (cur :: rest) pos 0 (poolFrame C)).2.2.2
              (lastEndD (trackReadLoop d (pos + C) (cur :: rest) pos 0 (poolFrame C)).2.2.1
                (trackReadLoop d (pos + C) (cur :: rest) pos 0 (poolFrame C)).2.2.2) -
              (trackReadLoop d (pos + C) (cur :: rest) pos 0 (poolFrame C)).2.2.2).toNat + 2 ≤
            fuel := by
          rw [htot']
          omega
        obtain ⟨ih1, ih2⟩ := IH _ _ hch' hlen' hfuel'
        refine ⟨?_, ?_⟩
        · rw [ih1, htot', hread']
          omega
        · rw [ih2]
          have htake : (trackReadLoop d (pos + C) (cur :: rest) pos 0 (poolFrame C)).1.take
                (trackReadLoop d (pos + C) (cur :: rest) pos 0 (poolFrame C)).2.1 =
              (List.range C).map (fun i : ℕ => trackAt d (cur :: rest) (pos + (i : ℤ))) := by
            rw [hread']
            apply take_eq_rangeMap
            · omega
            · intro j hj
              exact h6 j (by omega) (by omega)
          rw [htake]
          have htotsplit : (max pos (lastEndD (cur :: rest) pos) - pos).toNat =
              C + ((max (trackReadLoop d (pos + C) (cur :: rest) pos 0 (poolFrame C)).2.2.2
                (lastEndD (trackReadLoop d (pos + C) (cur :: rest) pos 0 (poolFrame C)).2.2.1
                  (trackReadLoop d (pos + C) (cur :: rest) pos 0 (poolFrame C)).2.2.2) -
                (trackReadLoop d (pos + C) (cur :: rest) pos 0 (poolFrame C)).2.2.2).toNat) := by
            rw [htot']
            omega
          rw [htotsplit, List.range_add, List.map_append, List.map_map]
          congr 1
          apply List.map_congr_left
          intro i hi
          simp only [Function.comp_apply]
          rw [trackAt_congr d
            (trackReadLoop d (pos + C) (cur :: rest) pos 0 (poolFrame C)).2.2.1
            (cur :: rest) _ (h8 _ (by omega))]
          congr 1
          omega

/-- C7 (amended).  For every track whose stored links satisfy the
non-overlap and non-negative-length invariants and every positive
framework buffer size, the `trackSource` pull sequence starting at
`start` reports exactly `max start lastEnd - start` samples per channel
before EOF — the window end requested by the caller is ignored, reads
stop at the end of the last stored link — and the reported samples are
exactly the track contents: the covering link's asset samples where a
link covers the position, zero at uncovered positions (the pull buffers
are pool-zeroed, not explicitly gap-filled).  In particular a start
position at or past the end of every stored link yields zero samples
before EOF rather than the claimed `end - start` zeroes. -/
theorem track_source_stream (d : ℕ → List ℚ) (t : List Link) (start : ℤ)
    (C fuel : ℕ) (hch : ChainInv t) (hlen : LensNonneg t) (hC : 0 < C)
    (hfuel : (max start (lastEndD t start) - start).toNat + 2 ≤ fuel) :
    streamReads (trackStream d C fuel (t, start)) =
      (max start (lastEndD t start) - start).toNat ∧
    streamSamples (trackStream d C fuel (t, start)) =
      (List.range ((max start (lastEndD t start) - start).toNat)).map
        (fun i : ℕ => trackAt d t (start + (i : ℤ))) :=
  trackStream_post d C hC fuel t start hch hlen hfuel

/-- C7 witness.  A single two-sample link placed at position 1, pulled
with buffer size 2: three samples (one leading zero, two asset samples)
are reported before EOF. -/
theorem track_source_stream_witness :
    streamReads (trackStream (fun _ => [3, 5, 7]) 2 5
        ([{ At := 1, clip := { asset := 0, start := 0, len := 2 } }], 0)) =
      (max 0 (lastEndD [{ At := 1, clip := { asset := 0, start := 0, len := 2 } }] 0) -
        0).toNat ∧
    streamSamples (trackStream (fun _ => [3, 5, 7]) 2 5
        ([{ At := 1, clip := { asset := 0, start := 0, len := 2 } }], 0)) =
      (List.range ((max 0 (lastEndD
          [{ At := 1, clip := { asset := 0, start := 0, len := 2 } }] 0) - 0).toNat)).map
        (fun i : ℕ => trackAt (fun _ => [3, 5, 7])
          [{ At := 1, clip := { asset := 0, start := 0, len := 2 } }] (0 + (i : ℤ))) :=
  track_source_stream (fun _ => [3, 5, 7])
    [{ At := 1, clip := { asset := 0, start := 0, len := 2 } }] 0 2 5
    (by simp [ChainInv])
    (by intro l hl; simp only [List.mem_singleton] at hl; subst hl; decide)
    (by decide) (by decide)

end Audio
